import Mathlib

/-
Verification of the space-filling-curve index (src/sfc.rs).

The file shallowly embeds the SpaceFillingCurve index of sfc.rs: the
builder (SpaceFillingCurve::new), exact lookup (find), limits resolution
(limits), range query (find_range) and reverse lookup (find_by_value).

Modelling conventions:
- The coordinate type V is a linear order (the Rust bound V: Ord), keys K
  are lists of coordinates (the Rust bound K: Index<usize, Output = V> +
  FromIterator<V>), payloads F carry decidable equality (F: PartialEq).
- The external collaborators CellSpace (module cell_space) and
  MortonEncoder (module morton) are part of this repository but their
  sources are not available; they are modelled from the specification as
  records of abstract operations, with concrete instances further below.
- Rust panics (out-of-bounds indexing) are modelled by Option: a result
  of none means the corresponding Rust call panics.  Fallible collaborator
  calls (Result in Rust) are modelled with Except.
- The u32 cast on offsets (offsets stored as SFCOffset = u32) is modelled
  by reduction modulo 2^32.
- slice::sort_unstable_by is a standard-library call; its documented
  contract guarantees a sorted permutation of the input but explicitly
  permits reordering equal elements.  The builder is therefore
  parameterised by the sorting function, and the predicate SortsByCode
  captures exactly the documented contract.
-/

namespace IronSeaSFC

/-- Modelled from the spec: the coordinate quantizer (module cell_space,
not under src/).  Per the spec it quantizes a raw position into
per-dimension cell identifiers and offsets, answers round-down and
round-up quantization for range boundary resolution, reconstructs a
position from (cell identifiers, offsets), and reports the grid extreme
(maximal) quantized point.  Malformed or out-of-grid positions make the
quantization operations fail with an error (spec section 7). -/
structure CellSpace (V : Type) where
  key : List V → Except String (List Nat × List Nat)
  key_down : List V → Except String (List Nat × List Nat)
  key_up : List V → Except String (List Nat × List Nat)
  value : List Nat → List Nat → Except String (List V)
  last : List Nat × List Nat

/-- Modelled from the spec: the curve encoder (module morton, not under
src/).  It bit-interleaves a vector of cell identifiers into one scalar
curve code and inverts that mapping; encoding fails on a dimension
mismatch or an identifier exceeding the configured bit budget. -/
structure MortonEncoder where
  encode : List Nat → Except String Nat
  decode : Nat → List Nat

/-- One indexed record: the per-dimension offsets (Rust: [SFCOffset; MAX_K]
with MAX_K = 3, SFCOffset = u32) plus the opaque payload. -/
structure SFCRecord (F : Type) where
  offsets : List Nat
  fields : F
deriving DecidableEq, Repr

/-- One cell: a curve code together with the records sharing that code. -/
structure SFCCell (F : Type) where
  code : Nat
  records : List (SFCRecord F)
deriving DecidableEq, Repr

/-- The index structure of sfc.rs (struct SpaceFillingCurve). -/
structure SpaceFillingCurve (F V : Type) where
  dimensions : Nat
  morton : MortonEncoder
  space : CellSpace V
  index : List (SFCCell F)

/-- The resolved boundary of a range query (struct Limit). -/
structure Limit (V : Type) where
  idx : Nat
  position : List V
deriving DecidableEq, Repr

/-- The resolved pair of range-query boundaries (struct Limits).  The
source field named end is a Lean keyword, rendered here as stop. -/
structure Limits (V : Type) where
  start : Limit V
  stop : Limit V
deriving DecidableEq, Repr

/-- The constant MAX_K of sfc.rs: the compile-time maximum dimension count. -/
def MAX_K : Nat := 3

/-- The modulus 2^32 of the SFCOffset = u32 cast. -/
def U32 : Nat := 4294967296

variable {F V : Type} [DecidableEq F] [LinearOrder V]

/-- The record built for one item in SpaceFillingCurve::new: the offsets
are cast to u32 and the macro array_ref!(offsets, 0, MAX_K) takes the
first MAX_K entries, panicking (none) when fewer are present. -/
def itemRecord (offsets : List Nat) (f : F) : Option (SFCRecord F) :=
  if offsets.length < MAX_K then none
  else some ⟨[offsets.getD 0 0 % U32, offsets.getD 1 0 % U32, offsets.getD 2 0 % U32], f⟩

/-- Processing of one source item in the builder loop of
SpaceFillingCurve::new: quantize the key, encode the cell identifiers,
and either keep the (code, record) pair or drop the item with a logged
diagnostic.  A none result is the array_ref! panic. -/
def mkFlatItem (space : CellSpace V) (morton : MortonEncoder) (item : List V × F) :
    Option (List (Nat × SFCRecord F)) :=
  match space.key item.1 with
  | .error _ => some []
  | .ok (cell_ids, offsets) =>
    match morton.encode cell_ids with
    | .error _ => some []
    | .ok code =>
      match itemRecord offsets item.2 with
      | none => none
      | some record => some [(code, record)]

/-- The flat table of (code, record) pairs built by the first loop of
SpaceFillingCurve::new, in input order. -/
def mkFlat (space : CellSpace V) (morton : MortonEncoder) (items : List (List V × F)) :
    Option (List (Nat × SFCRecord F)) :=
  (mapM (mkFlatItem space morton) items).map List.flatten

/-- Push a record onto the records of the last cell, mirroring
index.index[count].records.push(record) where count is the index of the
last cell. -/
def appendToLast : List (SFCCell F) → SFCRecord F → List (SFCCell F)
  | [], _ => []
  | [c], r => [⟨c.code, c.records ++ [r]⟩]
  | c :: c2 :: cs, r => c :: appendToLast (c2 :: cs) r

/-- The grouping loop of SpaceFillingCurve::new: walk the sorted pairs,
appending each record either to the current (last) cell when its code
matches, or as a freshly pushed cell otherwise. -/
def groupLoop : List (SFCCell F) → Nat → List (Nat × SFCRecord F) → List (SFCCell F)
  | cells, _, [] => cells
  | cells, cur, p :: rest =>
    if p.1 = cur then groupLoop (appendToLast cells p.2) cur rest
    else groupLoop (cells ++ [⟨p.1, [p.2]⟩]) p.1 rest

/-- The contract of slice::sort_unstable_by with the comparator
a.0.cmp(&b.0): the output is a permutation of the input that is sorted by
the curve code.  Nothing more is guaranteed; equal codes may be
reordered. -/
def SortsByCode (sortFn : List (Nat × SFCRecord F) → List (Nat × SFCRecord F)) : Prop :=
  ∀ l, (sortFn l).Perm l ∧ (sortFn l).Pairwise (fun a b => a.1 ≤ b.1)

/-- The builder SpaceFillingCurve::new.  The quantizer and encoder construction is
delegated to the collaborators, so the already-initialized space and
morton encoder are taken as arguments; sortFn stands for the
sort_unstable_by call.  The none results are the two panics of the
source: array_ref! on a short offset vector, and the unconditional
flat_table[0] access, which panics when the valid item set is empty. -/
def SpaceFillingCurve.new (sortFn : List (Nat × SFCRecord F) → List (Nat × SFCRecord F))
    (space : CellSpace V) (morton : MortonEncoder) (dimensions : Nat)
    (items : List (List V × F)) : Option (SpaceFillingCurve F V) :=
  match mkFlat space morton items with
  | none => none
  | some flat =>
    match sortFn flat with
    | [] => none
    | p0 :: rest =>
      some ⟨dimensions, morton, space, groupLoop [⟨p0.1, []⟩] p0.1 (p0 :: rest)⟩

/-- Method encode of SpaceFillingCurve: cast the cell identifiers to
MortonValue (identity on Nat) and delegate to the morton encoder. -/
def SpaceFillingCurve.encode (s : SpaceFillingCurve F V) (cell_ids : List Nat) :
    Except String Nat :=
  s.morton.encode cell_ids

/-- Method value of SpaceFillingCurve: decode the curve code back to cell
identifiers and reconstruct the position through the cell space. -/
def SpaceFillingCurve.value (s : SpaceFillingCurve F V) (code : Nat) (offsets : List Nat) :
    Except String (List V) :=
  s.space.value (s.morton.decode code) offsets

/-- Method position of SpaceFillingCurve: the reconstructed coordinate
values cloned and collected into a key. -/
def SpaceFillingCurve.position (s : SpaceFillingCurve F V) (code : Nat) (offsets : List Nat) :
    Except String (List V) :=
  (s.value code offsets).map (fun p => p.map (fun x => x))

/-- The list of cell codes of the index, in cell-array order. -/
def SpaceFillingCurve.codes (s : SpaceFillingCurve F V) : List Nat :=
  s.index.map (fun c => c.code)

/-- The loop body of slice::binary_search_by, with explicit fuel; the
comparison target is a curve code.  Mirrors the standard library: ok is a
found index, error is the insertion point. -/
def bsLoop (codes : List Nat) (target : Nat) : Nat → Nat → Nat → Except Nat Nat
  | 0, left, _ => .error left
  | fuel + 1, left, right =>
    if left < right then
      let mid := left + (right - left) / 2
      let c := codes.getD mid 0
      if c < target then bsLoop codes target fuel (mid + 1) right
      else if target < c then bsLoop codes target fuel left mid
      else .ok mid
    else .error left

/-- The standard-library binary search (slice::binary_search_by) over the cell codes. -/
def binarySearch (codes : List Nat) (target : Nat) : Except Nat Nat :=
  bsLoop codes target (codes.length + 1) 0 codes.length

/-- The per-record selection test of find: compare the record offsets
against the query offsets over the first dimensions entries.  A none
result is the panic of record.offsets[k] when k reaches past the offsets
array. -/
def selectRecord (dimensions : Nat) (qoffsets : List Nat) (record : SFCRecord F) :
    Option Bool :=
  let n := min dimensions qoffsets.length
  if n ≤ record.offsets.length then
    some ((List.range n).all fun k => record.offsets.getD k 0 == qoffsets.getD k 0 % U32)
  else none

/-- The record scan of find inside the located cell, collecting the
payloads of the selected records in cell order. -/
def collectMatches (dimensions : Nat) (qoffsets : List Nat) :
    List (SFCRecord F) → Option (List F)
  | [] => some []
  | record :: rest =>
    match selectRecord dimensions qoffsets record, collectMatches dimensions qoffsets rest with
    | some b, some vs => some (if b then record.fields :: vs else vs)
    | _, _ => none

/-- The find method (IndexedDestructured::find) of sfc.rs: quantize, encode, binary-search
the cell array, then scan the hit cell; every failure short-circuits to
an empty result. -/
def SpaceFillingCurve.find (s : SpaceFillingCurve F V) (key : List V) : Option (List F) :=
  match s.space.key key with
  | .error _ => some []
  | .ok (cell_ids, offsets) =>
    match s.encode cell_ids with
    | .error _ => some []
    | .ok code =>
      match binarySearch s.codes code with
      | .error _ => some []
      | .ok cell =>
        if h : cell < s.index.length then
          collectMatches s.dimensions offsets (s.index.get ⟨cell, h⟩).records
        else none

/-- The reverse lookup SpaceFillingCurve::find_by_value: linear scan over every cell and
every record, reconstructing the key of each record whose payload equals
the probe; reconstruction failures skip the record. -/
def SpaceFillingCurve.find_by_value (s : SpaceFillingCurve F V) (v : F) : List (List V) :=
  s.index.flatMap fun cell =>
    cell.records.filterMap fun record =>
      if record.fields = v then (s.position cell.code record.offsets).toOption else none

/-- The helper SpaceFillingCurve::limits: resolve the start boundary by rounding the
quantized start key down, encoding and binary-searching (insertion point
minus one, clamped to 0, when absent), and the end boundary by rounding
up, encoding and binary-searching (found index plus one when present,
insertion point clamped to the array length when absent). -/
def SpaceFillingCurve.limits (s : SpaceFillingCurve F V) (start stop : List V) :
    Except String (Limits V) :=
  match s.space.key_down start with
  | .error e => .error e
  | .ok (cells, offsets) =>
    match s.encode cells with
    | .error e => .error e
    | .ok code =>
      let sidx := match binarySearch s.codes code with
        | .error e => if 0 < e then e - 1 else 0
        | .ok c => c
      match s.space.value cells offsets with
      | .error e => .error e
      | .ok pos1 =>
        match s.space.key_up stop with
        | .error e => .error e
        | .ok (cells2, offsets2) =>
          match s.encode cells2 with
          | .error e => .error e
          | .ok code2 =>
            let eidx := match binarySearch s.codes code2 with
              | .error e => if s.index.length ≤ e then s.index.length else e
              | .ok c => c + 1
            match s.space.value cells2 offsets2 with
            | .error e => .error e
            | .ok pos2 => .ok ⟨⟨sidx, pos1⟩, ⟨eidx, pos2⟩⟩

/-- The body of the range-scan loop of find_range for one cell index.
A none result is a panic: indexing a missing cell, records[0] on an empty
record list, or start[0..2] and end[0..2] on too-short query keys.  The
some [] results are the continue branches that skip the cell. -/
def scanCell (s : SpaceFillingCurve F V) (start stop : List V) (idx : Nat) :
    Option (List (List V × F)) :=
  if hidx : idx < s.index.length then
    let cell := s.index.get ⟨idx, hidx⟩
    match cell.records with
    | [] => none
    | record0 :: _ =>
      match s.value cell.code record0.offsets with
      | .error _ => some []
      | .ok first =>
        match s.space.value s.space.last.1 s.space.last.2 with
        | .error _ => some []
        | .ok lastPos =>
          if start.length < 3 ∨ stop.length < 3 then none
          else
            let startPos := start.take 3
            let stopPos := stop.take 3
            let fas := (startPos.zip first).all fun ab => decide (ab.1 ≤ ab.2)
            let las := (startPos.zip lastPos).all fun ab => decide (ab.1 ≤ ab.2)
            let fbe := (stopPos.zip first).all fun ab => decide (ab.2 ≤ ab.1)
            let lbe := (stopPos.zip lastPos).all fun ab => decide (ab.2 ≤ ab.1)
            if fas && las && fbe && lbe then
              some (cell.records.filterMap fun record =>
                match s.position cell.code record.offsets with
                | .error _ => none
                | .ok key => some (key, record.fields))
            else
              some (cell.records.filterMap fun record =>
                match s.value cell.code record.offsets with
                | .error _ => none
                | .ok pos =>
                  let pas := (startPos.zip pos).all fun ab => decide (ab.1 ≤ ab.2)
                  let pbe := (stopPos.zip pos).all fun ab => decide (ab.2 ≤ ab.1)
                  if pas && pbe then
                    match s.position cell.code record.offsets with
                    | .error _ => none
                    | .ok key => some (key, record.fields)
                  else none)
  else none

/-- The range query (IndexedDestructured::find_range) of sfc.rs: resolve the limits (a
failure yields an empty result), then scan every cell index of the
resolved inclusive-exclusive range. -/
def SpaceFillingCurve.find_range (s : SpaceFillingCurve F V) (start stop : List V) :
    Option (List (List V × F)) :=
  match s.limits start stop with
  | .error _ => some []
  | .ok lim =>
    match mapM (scanCell s start stop) (List.range' lim.start.idx (lim.stop.idx - lim.start.idx)) with
    | none => none
    | some chunks => some chunks.flatten

/-! Concrete collaborator instances, used to exercise the index on
concrete data.  They are modelled from the spec, since the cell_space and
morton modules of this repository are not under src/. -/

/-- Modelled from the spec: Morton bit-interleaving of per-dimension cell
identifiers (glossary: Morton/Z-order code). -/
def mortonEncodeNat (dims bits : Nat) (ids : List Nat) : Nat :=
  (List.range dims).foldl (fun acc d =>
    (List.range bits).foldl (fun acc2 b =>
      acc2 + ids.getD d 0 / 2 ^ b % 2 * 2 ^ (b * dims + d)) acc) 0

/-- Modelled from the spec: inverse of the Morton bit-interleaving. -/
def mortonDecodeNat (dims bits : Nat) (code : Nat) : List Nat :=
  (List.range dims).map fun d =>
    (List.range bits).foldl (fun acc b => acc + code / 2 ^ (b * dims + d) % 2 * 2 ^ b) 0

/-- Modelled from the spec: a concrete MortonEncoder with the failure
modes the spec lists for encode (dimension mismatch, identifier exceeding
the bit budget). -/
def mkMorton (dims bits : Nat) : MortonEncoder :=
  ⟨fun ids =>
    if ids.length ≠ dims then .error "dimension mismatch"
    else if ids.any fun v => 2 ^ bits ≤ v then .error "cell identifier exceeds bit budget"
    else .ok (mortonEncodeNat dims bits ids),
   fun code => mortonDecodeNat dims bits code⟩

/-- Modelled from the spec: quantization over a dense integer grid with
scale raw units per cell; cell identifier v / scale, offset v % scale.
A position with fewer than dims components is an invalid position and
fails (spec section 7 treats malformed query keys as failures, not
crashes). -/
def gridQuantize (dims scale : Nat) (pos : List Nat) : Except String (List Nat × List Nat) :=
  if pos.length < dims then .error "invalid position"
  else .ok ((pos.take dims).map fun v => v / scale, (pos.take dims).map fun v => v % scale)

/-- Modelled from the spec: exact inverse of gridQuantize. -/
def gridValue (dims scale : Nat) (cells offsets : List Nat) : Except String (List Nat) :=
  if cells.length = dims ∧ offsets.length = dims then
    .ok ((cells.zip offsets).map fun co => co.1 * scale + co.2)
  else .error "invalid cell identifiers"

/-- Modelled from the spec: a concrete CellSpace over the dense integer
grid.  On this grid every integer position exists, so round-down and
round-up quantization coincide with exact quantization; the grid extreme
is the maximal indexed point, supplied as an argument the way the
dictionary-based cell space derives it from the data. -/
def mkGridSpace (dims scale : Nat) (extreme : List Nat) : CellSpace Nat :=
  ⟨gridQuantize dims scale, gridQuantize dims scale, gridQuantize dims scale,
   gridValue dims scale,
   (extreme.map fun v => v / scale, extreme.map fun v => v % scale)⟩

/-- A conforming implementation of the sort_unstable_by contract: a
stable insertion sort by curve code. -/
def rtSort (l : List (Nat × SFCRecord F)) : List (Nat × SFCRecord F) :=
  l.insertionSort fun a b => a.1 ≤ b.1

/-- Another conforming implementation of the sort_unstable_by contract:
sort the reversed input by curve code, so that pairs with equal codes
come out in reversed input order.  The contract of sort_unstable_by
permits this behaviour. -/
def revSort (l : List (Nat × SFCRecord F)) : List (Nat × SFCRecord F) :=
  l.reverse.insertionSort fun a b => a.1 ≤ b.1

/-! Derived and specification-side definitions. -/

/-- The (code, record) pairs stored in a cell array, cell by cell and
record by record in order. -/
def pairsOf (cells : List (SFCCell F)) : List (Nat × SFCRecord F) :=
  cells.flatMap fun cell => cell.records.map fun r => (cell.code, r)

/-- Spec-side: the insertion point of a code in a sorted code array is
the number of codes strictly below it. -/
def insertionPoint (codes : List Nat) (code : Nat) : Nat :=
  codes.countP fun c => decide (c < code)

/-- Spec-side, following the words of the limits description: the start
boundary uses the found index if the code is present, otherwise the
insertion point minus one clamped to 0. -/
def resolveStart (codes : List Nat) (code : Nat) : Nat :=
  if code ∈ codes then codes.indexOf code else insertionPoint codes code - 1

/-- Spec-side, following the words of the limits description: the end
boundary uses the found index plus one if the code is present, otherwise
the insertion point clamped to the array length. -/
def resolveEnd (codes : List Nat) (code : Nat) : Nat :=
  if code ∈ codes then codes.indexOf code + 1
  else min (insertionPoint codes code) codes.length

/-- Spec-side, following the words of the range-query description: the
component-wise bounding-box test, start i less or equal p i less or
equal end i for all dimensions. -/
def inBoxSpec [Inhabited V] (dims : Nat) (a b p : List V) : Bool :=
  (List.range dims).all fun i =>
    decide (a.getD i default ≤ p.getD i default) && decide (p.getD i default ≤ b.getD i default)

/-- Spec-side: the reconstructed key of a record (its decoded position),
assuming reconstruction succeeds. -/
def keyOfSpec (s : SpaceFillingCurve F V) (code : Nat) (offs : List Nat) : List V :=
  (s.position code offs).toOption.getD []

/-- Spec-side: a record passes the bounding-box test when its decoded
position does. -/
def recInBox [Inhabited V] (s : SpaceFillingCurve F V) (a b : List V) (code : Nat)
    (record : SFCRecord F) : Bool :=
  match s.value code record.offsets with
  | .ok p => inBoxSpec s.dimensions a b p
  | .error _ => false

/-- Spec-side, following the words of the range-query description: test
the first record position and the global grid extreme against the box;
if both pass, accept every record of the cell, otherwise accept exactly
the records whose decoded position passes the same test. -/
def scanCellSpec [Inhabited V] (s : SpaceFillingCurve F V) (a b : List V) (idx : Nat) :
    List (List V × F) :=
  match s.index.get? idx with
  | none => []
  | some cell =>
    match cell.records with
    | [] => []
    | record0 :: _ =>
      match s.value cell.code record0.offsets, s.space.value s.space.last.1 s.space.last.2 with
      | .ok first, .ok extreme =>
        if inBoxSpec s.dimensions a b first && inBoxSpec s.dimensions a b extreme then
          cell.records.map fun record => (keyOfSpec s cell.code record.offsets, record.fields)
        else
          (cell.records.filter fun record => recInBox s a b cell.code record).map
            fun record => (keyOfSpec s cell.code record.offsets, record.fields)
      | _, _ => []

/-- Spec-side range query: scan every cell index of the resolved
inclusive-exclusive limits range with the spec-side per-cell rule. -/
def findRangeSpec [Inhabited V] (s : SpaceFillingCurve F V) (a b : List V) :
    List (List V × F) :=
  match s.limits a b with
  | .error _ => []
  | .ok lim =>
    (List.range' lim.start.idx (lim.stop.idx - lim.start.idx)).flatMap (scanCellSpec s a b)

/-- Decidable success condition: the decoded position of a record exists
and has exactly the configured dimension count. -/
def valueLenOk (s : SpaceFillingCurve F V) (code : Nat) (offs : List Nat) : Bool :=
  match s.value code offs with
  | .ok p => p.length == s.dimensions
  | .error _ => false

/-- Decidable success condition: the reconstructed global grid extreme
exists and has exactly the configured dimension count. -/
def lastLenOk (s : SpaceFillingCurve F V) : Bool :=
  match s.space.value s.space.last.1 s.space.last.2 with
  | .ok p => p.length == s.dimensions
  | .error _ => false

/-- Spec-side reverse lookup: the reconstructed keys of exactly the
records whose payload equals the probe, in scan order. -/
def findByValueSpec (s : SpaceFillingCurve F V) (v : F) : List (List V) :=
  ((pairsOf s.index).filter fun p => decide (p.2.fields = v)).map
    fun p => keyOfSpec s p.1 p.2.offsets

/-! Concrete test fixtures. -/

/-- A concrete cell space: dims 3, scale 4 per cell, grid extreme at the
maximal indexed point (7, 7, 0). -/
def sfcSpace8 : CellSpace Nat := mkGridSpace 3 4 [7, 7, 0]

/-- A concrete 3-dimensional Morton encoder with 2 bits per dimension. -/
def sfcMorton8 : MortonEncoder := mkMorton 3 2

/-- Two items sharing one cell (both quantize to cell identifiers
(1, 1, 0), Morton code 3) but with incomparable positions. -/
def items8 : List (List Nat × String) := [([5, 7, 0], "p"), ([7, 4, 0], "q")]

/-- The index built from items8. -/
def idx8 : SpaceFillingCurve String Nat :=
  ⟨3, sfcMorton8, sfcSpace8, [⟨3, [⟨[1, 3, 0], "p"⟩, ⟨[3, 0, 0], "q"⟩]⟩]⟩

/-- Two items with identical keys, for the duplicate-key scenarios. -/
def itemsDup : List (List Nat × String) := [([5, 5, 5], "x"), ([5, 5, 5], "y")]

/-- A concrete cell space for the duplicate-key scenario. -/
def spaceDup : CellSpace Nat := mkGridSpace 3 4 [5, 5, 5]

/-- The index built from itemsDup under the tie-reversing conforming
sort: both records live in the cell with Morton code 7, in reversed
input order. -/
def idxDup : SpaceFillingCurve String Nat :=
  ⟨3, sfcMorton8, spaceDup, [⟨7, [⟨[1, 1, 1], "y"⟩, ⟨[1, 1, 1], "x"⟩]⟩]⟩

/-- A 2-dimensional index structure (as find_range receives it), holding
one cell with one record at position (5, 7). -/
def idx2 : SpaceFillingCurve String Nat :=
  ⟨2, mkMorton 2 2, mkGridSpace 2 4 [7, 7], [⟨3, [⟨[1, 3], "w"⟩]⟩]⟩

lemma insertionSort_byCode_sorts (l : List (Nat × SFCRecord F)) :
    (l.insertionSort fun a b => a.1 ≤ b.1).Pairwise fun a b => a.1 ≤ b.1 := by
  haveI : IsTotal (Nat × SFCRecord F) fun a b => a.1 ≤ b.1 := ⟨fun a b => Nat.le_total a.1 b.1⟩
  haveI : IsTrans (Nat × SFCRecord F) fun a b => a.1 ≤ b.1 :=
    ⟨fun _ _ _ h1 h2 => le_trans h1 h2⟩
  exact List.sorted_insertionSort _ l

lemma rtSort_sorts : SortsByCode (rtSort (F := F)) := by
  intro l
  exact ⟨List.perm_insertionSort _ l, insertionSort_byCode_sorts l⟩

lemma revSort_sorts : SortsByCode (revSort (F := F)) := by
  intro l
  refine ⟨?_, insertionSort_byCode_sorts l.reverse⟩
  exact (List.perm_insertionSort _ l.reverse).trans (List.reverse_perm l)

/-! Correctness of the binary search embedding. -/

lemma pairwise_lt_getD {codes : List Nat} (hsorted : codes.Pairwise (· < ·))
    {i j : Nat} (hij : i < j) (hj : j < codes.length) :
    codes.getD i 0 < codes.getD j 0 := by
  rw [List.getD_eq_getElem _ _ (lt_trans hij hj), List.getD_eq_getElem _ _ hj]
  exact List.pairwise_iff_getElem.mp hsorted i j _ _ hij

lemma bsLoop_ok_spec (codes : List Nat) (target : Nat) :
    ∀ fuel left right i, right ≤ codes.length →
      bsLoop codes target fuel left right = .ok i →
      i < codes.length ∧ codes.getD i 0 = target := by
  intro fuel
  induction fuel with
  | zero => intro left right i _ h; simp [bsLoop] at h
  | succ fuel ih =>
    intro left right i hlen h
    rw [bsLoop] at h
    by_cases hlr : left < right
    · simp only [if_pos hlr] at h
      have hmid : left + (right - left) / 2 < right := by omega
      by_cases h1 : codes.getD (left + (right - left) / 2) 0 < target
      · rw [if_pos h1] at h
        exact ih _ _ _ hlen h
      · rw [if_neg h1] at h
        by_cases h2 : target < codes.getD (left + (right - left) / 2) 0
        · rw [if_pos h2] at h
          exact ih _ _ _ (le_trans (le_of_lt hmid) hlen) h
        · rw [if_neg h2] at h
          cases h
          exact ⟨lt_of_lt_of_le hmid hlen, by omega⟩
    · simp [if_neg hlr] at h

lemma bsLoop_err_spec (codes : List Nat) (target : Nat)
    (hsorted : codes.Pairwise (· < ·)) :
    ∀ fuel left right e, right - left ≤ fuel → left ≤ right → right ≤ codes.length →
      (∀ j, j < left → codes.getD j 0 < target) →
      (∀ j, right ≤ j → j < codes.length → target < codes.getD j 0) →
      bsLoop codes target fuel left right = .error e →
      e ≤ codes.length ∧ (∀ j, j < e → codes.getD j 0 < target) ∧
        (∀ j, e ≤ j → j < codes.length → target < codes.getD j 0) := by
  intro fuel
  induction fuel with
  | zero =>
    intro left right e hfuel hlr hlen hlo hhi h
    simp only [bsLoop] at h
    cases h
    have : left = right := by omega
    exact ⟨by omega, hlo, fun j hj hjlen => hhi j (by omega) hjlen⟩
  | succ fuel ih =>
    intro left right e hfuel hlr hlen hlo hhi h
    rw [bsLoop] at h
    by_cases hltr : left < right
    · simp only [if_pos hltr] at h
      have hmid : left + (right - left) / 2 < right := by omega
      have hmidlen : left + (right - left) / 2 < codes.length := lt_of_lt_of_le hmid hlen
      by_cases h1 : codes.getD (left + (right - left) / 2) 0 < target
      · rw [if_pos h1] at h
        refine ih (left + (right - left) / 2 + 1) right e (by omega) (by omega) hlen ?_ hhi h
        intro j hj
        rcases lt_or_ge j left with hjl | hjl
        · exact hlo j hjl
        · rcases Nat.lt_or_ge j (left + (right - left) / 2) with hjm | hjm
          · exact lt_trans (pairwise_lt_getD hsorted hjm hmidlen) h1
          · have : j = left + (right - left) / 2 := by omega
            rw [this]; exact h1
      · rw [if_neg h1] at h
        by_cases h2 : target < codes.getD (left + (right - left) / 2) 0
        · rw [if_pos h2] at h
          refine ih left (left + (right - left) / 2) e (by omega) (by omega)
            (le_of_lt hmidlen) hlo ?_ h
          intro j hj hjlen
          rcases Nat.lt_or_ge j right with hjr | hjr
          · rcases Nat.eq_or_lt_of_le hj with heq | hlt
            · rw [← heq]; exact h2
            · exact lt_trans h2 (pairwise_lt_getD hsorted hlt hjlen)
          · exact hhi j hjr hjlen
        · rw [if_neg h2] at h
          cases h
    · simp only [if_neg hltr] at h
      cases h
      have : left = right := by omega
      exact ⟨by omega, hlo, fun j hj hjlen => hhi j (by omega) hjlen⟩

lemma binarySearch_ok {codes : List Nat} {target i : Nat}
    (h : binarySearch codes target = .ok i) :
    i < codes.length ∧ codes.getD i 0 = target :=
  bsLoop_ok_spec codes target _ 0 codes.length i (le_refl _) h

lemma binarySearch_err {codes : List Nat} {target e : Nat}
    (hsorted : codes.Pairwise (· < ·))
    (h : binarySearch codes target = .error e) :
    e ≤ codes.length ∧ (∀ j, j < e → codes.getD j 0 < target) ∧
      (∀ j, e ≤ j → j < codes.length → target < codes.getD j 0) :=
  bsLoop_err_spec codes target hsorted _ 0 codes.length e (by omega) (by omega)
    (le_refl _) (fun j hj => absurd hj (Nat.not_lt_zero j))
    (fun j hj hjlen => absurd hjlen (by omega)) h

lemma binarySearch_err_not_mem {codes : List Nat} {target e : Nat}
    (hsorted : codes.Pairwise (· < ·))
    (h : binarySearch codes target = .error e) :
    target ∉ codes := by
  obtain ⟨-, hlo, hhi⟩ := binarySearch_err hsorted h
  intro hmem
  obtain ⟨n, hn, hget⟩ := List.mem_iff_getElem.mp hmem
  have hgetD : codes.getD n 0 = target := by rw [List.getD_eq_getElem _ _ hn]; exact hget
  rcases Nat.lt_or_ge n e with hne | hne
  · exact absurd hgetD (ne_of_lt (hlo n hne))
  · exact absurd hgetD (ne_of_gt (hhi n hne hn))

lemma binarySearch_mem_ok {codes : List Nat} {target : Nat}
    (hsorted : codes.Pairwise (· < ·)) (hmem : target ∈ codes) :
    ∃ i, binarySearch codes target = .ok i := by
  cases h : binarySearch codes target with
  | error e => exact absurd hmem (binarySearch_err_not_mem hsorted h)
  | ok i => exact ⟨i, rfl⟩

/-- For a strictly sorted code array, the insertion point returned by a
failed binary search counts the codes below the target. -/
lemma binarySearch_err_countP {codes : List Nat} {target e : Nat}
    (hsorted : codes.Pairwise (· < ·))
    (h : binarySearch codes target = .error e) :
    e = codes.countP fun c => decide (c < target) := by
  obtain ⟨hlen, hlo, hhi⟩ := binarySearch_err hsorted h
  have hsplit : codes = codes.take e ++ codes.drop e := (List.take_append_drop e codes).symm
  have htake : (codes.take e).countP (fun c => decide (c < target)) = (codes.take e).length := by
    rw [List.countP_eq_length]
    intro a ha
    obtain ⟨n, hn, hget⟩ := List.mem_iff_getElem.mp ha
    have hne : n < e := by
      have := hn; rw [List.length_take] at this; omega
    have hnlen : n < codes.length := by omega
    have : codes.getD n 0 = a := by
      rw [List.getD_eq_getElem _ _ hnlen, ← List.getElem_take codes]
      exact hget
    simpa [← this] using hlo n hne
  have hdrop : (codes.drop e).countP (fun c => decide (c < target)) = 0 := by
    rw [List.countP_eq_zero]
    intro a ha
    obtain ⟨n, hn, hget⟩ := List.mem_iff_getElem.mp ha
    have hnlen : e + n < codes.length := by
      have := hn; rw [List.length_drop] at this; omega
    have : codes.getD (e + n) 0 = a := by
      rw [List.getD_eq_getElem _ _ hnlen, ← List.getElem_drop codes]
      exact hget
    have hgt := hhi (e + n) (by omega) hnlen
    rw [this] at hgt
    simp only [decide_eq_true_eq]
    omega
  calc e = (codes.take e).length + 0 := by rw [List.length_take]; omega
  _ = codes.countP fun c => decide (c < target) := by
      rw [← htake, ← hdrop]
      conv_rhs => rw [hsplit]
      rw [List.countP_append]

/-- For a strictly sorted code array, a successful binary search returns
the unique index of the target, which is List.indexOf. -/
lemma sorted_indexOf_eq {codes : List Nat} {target i : Nat}
    (hsorted : codes.Pairwise (· < ·)) (hi : i < codes.length)
    (hc : codes.getD i 0 = target) :
    codes.indexOf target = i := by
  have hnodup : codes.Nodup := hsorted.nodup
  have hget : codes[i] = target := by rw [← List.getD_eq_getElem codes 0 hi]; exact hc
  have hmem : target ∈ codes := List.mem_iff_getElem.mpr ⟨i, hi, hget⟩
  have hlt := List.indexOf_lt_length.mpr hmem
  have h1 : codes.get ⟨codes.indexOf target, hlt⟩ = target := List.indexOf_get hlt
  have h2 : codes.get ⟨codes.indexOf target, hlt⟩ = codes.get ⟨i, hi⟩ := by
    rw [h1]; simp [List.get_eq_getElem, hget]
  have := (hnodup.get_inj_iff).mp h2
  exact congrArg Fin.val this

/-! Structure of the built index: the grouping loop of the builder. -/

lemma pairsOf_append (l1 l2 : List (SFCCell F)) :
    pairsOf (l1 ++ l2) = pairsOf l1 ++ pairsOf l2 := by
  simp [pairsOf]

lemma appendToLast_eq (cells : List (SFCCell F)) (r : SFCRecord F) (lc : SFCCell F)
    (h : cells.getLast? = some lc) :
    ∃ init, cells = init ++ [lc] ∧
      appendToLast cells r = init ++ [⟨lc.code, lc.records ++ [r]⟩] := by
  induction cells with
  | nil => simp at h
  | cons c cs ih =>
    cases cs with
    | nil =>
      simp at h
      exact ⟨[], by simp [h], by simp [appendToLast, h]⟩
    | cons c2 cs2 =>
      rw [List.getLast?_cons_cons] at h
      obtain ⟨init, hcells, happ⟩ := ih h
      exact ⟨c :: init, by simp [hcells], by simp [appendToLast, happ]⟩

lemma groupLoop_pairsOf :
    ∀ (l : List (Nat × SFCRecord F)) (cells : List (SFCCell F)) (cur : Nat)
      (lc : SFCCell F), cells.getLast? = some lc → lc.code = cur →
      pairsOf (groupLoop cells cur l) = pairsOf cells ++ l := by
  intro l
  induction l with
  | nil => intro cells cur lc hlast hcode; simp [groupLoop]
  | cons p rest ih =>
    intro cells cur lc hlast hcode
    rw [groupLoop]
    by_cases hp : p.1 = cur
    · rw [if_pos hp]
      obtain ⟨init, hcells, happ⟩ := appendToLast_eq cells p.2 lc hlast
      rw [ih (appendToLast cells p.2) cur ⟨lc.code, lc.records ++ [p.2]⟩
        (by rw [happ]; exact List.getLast?_concat _) hcode]
      rw [happ, hcells, pairsOf_append, pairsOf_append]
      simp [pairsOf, hcode, ← hp]
    · rw [if_neg hp]
      rw [ih (cells ++ [⟨p.1, [p.2]⟩]) p.1 ⟨p.1, [p.2]⟩ (List.getLast?_concat _) rfl]
      rw [pairsOf_append]
      simp [pairsOf]

lemma groupLoop_codes_pairwise :
    ∀ (l : List (Nat × SFCRecord F)) (cells : List (SFCCell F)) (cur : Nat)
      (lc : SFCCell F), cells.getLast? = some lc → lc.code = cur →
      l.Pairwise (fun a b => a.1 ≤ b.1) → (∀ p ∈ l, cur ≤ p.1) →
      (cells.map fun c => c.code).Pairwise (· < ·) →
      (∀ c ∈ cells.map fun c => c.code, c ≤ cur) →
      ((groupLoop cells cur l).map fun c => c.code).Pairwise (· < ·) := by
  intro l
  induction l with
  | nil => intro cells cur lc _ _ _ _ hpw _; simpa [groupLoop] using hpw
  | cons p rest ih =>
    intro cells cur lc hlast hcode hsorted hge hpw hmax
    rw [groupLoop]
    rw [List.pairwise_cons] at hsorted
    by_cases hp : p.1 = cur
    · rw [if_pos hp]
      obtain ⟨init, hcells, happ⟩ := appendToLast_eq cells p.2 lc hlast
      have hcodes : ((appendToLast cells p.2).map fun c => c.code)
          = cells.map fun c => c.code := by
        rw [happ, hcells]; simp
      refine ih (appendToLast cells p.2) cur ⟨lc.code, lc.records ++ [p.2]⟩
        (by rw [happ]; exact List.getLast?_concat _) hcode hsorted.2
        (fun q hq => le_trans (hp ▸ hge p (by simp)) (hsorted.1 q hq)) ?_ ?_
      · rw [hcodes]; exact hpw
      · rw [hcodes]; exact hmax
    · rw [if_neg hp]
      have hcur : cur < p.1 := lt_of_le_of_ne (hge p (by simp)) (fun h => hp h.symm)
      refine ih (cells ++ [⟨p.1, [p.2]⟩]) p.1 ⟨p.1, [p.2]⟩ (List.getLast?_concat _) rfl
        hsorted.2 (fun q hq => hsorted.1 q hq) ?_ ?_
      · rw [List.map_append, List.pairwise_append]
        refine ⟨hpw, by simp, ?_⟩
        intro a ha b hb
        simp at hb
        rw [hb]
        exact lt_of_le_of_lt (hmax a ha) hcur
      · intro c hc
        rw [List.map_append] at hc
        rcases List.mem_append.mp hc with hc | hc
        · exact le_of_lt (lt_of_le_of_lt (hmax c hc) hcur)
        · simp at hc; omega

/-! Structure of the flat table built by the first loop of the builder. -/

lemma mkFlat_nil (space : CellSpace V) (morton : MortonEncoder) :
    mkFlat (F := F) space morton [] = some [] := rfl

lemma mkFlat_cons (space : CellSpace V) (morton : MortonEncoder)
    (item : List V × F) (items : List (List V × F)) {flat : List (Nat × SFCRecord F)}
    (h : mkFlat space morton (item :: items) = some flat) :
    ∃ x rest, mkFlatItem space morton item = some x ∧
      mkFlat space morton items = some rest ∧ flat = x ++ rest := by
  unfold mkFlat at h ⊢
  rw [List.mapM_cons] at h
  cases hx : mkFlatItem space morton item with
  | none => rw [hx] at h; simp at h
  | some x =>
    rw [hx] at h
    cases hrest : mapM (mkFlatItem space morton) items with
    | none => rw [hrest] at h; simp at h
    | some rest =>
      rw [hrest] at h
      simp at h
      exact ⟨x, rest.flatten, rfl, rfl, h.symm⟩

lemma mkFlat_mem {space : CellSpace V} {morton : MortonEncoder}
    {items : List (List V × F)} {flat : List (Nat × SFCRecord F)}
    (h : mkFlat space morton items = some flat)
    {k : List V} {f : F} {cids offs : List Nat} {code : Nat}
    (hitem : (k, f) ∈ items)
    (hkey : space.key k = .ok (cids, offs)) (hcode : morton.encode cids = .ok code) :
    3 ≤ offs.length ∧
      (code, ⟨[offs.getD 0 0 % U32, offs.getD 1 0 % U32, offs.getD 2 0 % U32], f⟩) ∈ flat := by
  induction items generalizing flat with
  | nil => simp at hitem
  | cons item rest ih =>
    obtain ⟨x, xs, hx, hrest, hflat⟩ := mkFlat_cons _ _ _ _ h
    rcases List.mem_cons.mp hitem with heq | hmem
    · rw [← heq] at hx
      simp only [mkFlatItem, hkey, hcode] at hx
      unfold itemRecord at hx
      by_cases hlen : offs.length < MAX_K
      · rw [if_pos hlen] at hx; simp at hx
      · rw [if_neg hlen] at hx
        refine ⟨by unfold MAX_K at hlen; omega, ?_⟩
        rw [hflat]
        simp at hx
        rw [← hx]
        simp
    · obtain ⟨h1, h2⟩ := ih hrest hmem
      exact ⟨h1, by rw [hflat]; exact List.mem_append_right x h2⟩

lemma mkFlat_offsets_length {space : CellSpace V} {morton : MortonEncoder}
    {items : List (List V × F)} {flat : List (Nat × SFCRecord F)}
    (h : mkFlat space morton items = some flat) :
    ∀ p ∈ flat, p.2.offsets.length = 3 := by
  induction items generalizing flat with
  | nil =>
    rw [mkFlat_nil] at h
    cases h; simp
  | cons item rest ih =>
    obtain ⟨x, xs, hx, hrest, hflat⟩ := mkFlat_cons _ _ _ _ h
    intro p hp
    rw [hflat] at hp
    rcases List.mem_append.mp hp with hp | hp
    · unfold mkFlatItem at hx
      cases hkey : space.key item.1 with
      | error e => rw [hkey] at hx; cases hx; simp at hp
      | ok co =>
        rw [hkey] at hx
        simp only at hx
        cases hcode : morton.encode co.1 with
        | error e => rw [hcode] at hx; cases hx; simp at hp
        | ok code =>
          rw [hcode] at hx
          simp only at hx
          cases hrec : itemRecord (F := F) co.2 item.2 with
          | none => rw [hrec] at hx; cases hx
          | some record =>
            rw [hrec] at hx
            cases hx
            simp at hp
            unfold itemRecord at hrec
            by_cases hlen : co.2.length < MAX_K
            · rw [if_pos hlen] at hrec; cases hrec
            · rw [if_neg hlen] at hrec
              cases hrec
              rw [hp]
              rfl
    · exact ih hrest p hp

/-! Unfolding the builder. -/

lemma new_eq {sortFn : List (Nat × SFCRecord F) → List (Nat × SFCRecord F)}
    {space : CellSpace V} {morton : MortonEncoder} {dims : Nat}
    {items : List (List V × F)} {s : SpaceFillingCurve F V}
    (h : SpaceFillingCurve.new sortFn space morton dims items = some s) :
    ∃ flat p0 rest, mkFlat space morton items = some flat ∧ sortFn flat = p0 :: rest ∧
      s = ⟨dims, morton, space, groupLoop [⟨p0.1, []⟩] p0.1 (p0 :: rest)⟩ := by
  unfold SpaceFillingCurve.new at h
  cases hflat : mkFlat space morton items with
  | none => rw [hflat] at h; cases h
  | some flat =>
    rw [hflat] at h
    simp only at h
    cases hsort : sortFn flat with
    | nil => rw [hsort] at h; cases h
    | cons p0 rest =>
      rw [hsort] at h
      cases h
      exact ⟨flat, p0, rest, rfl, hsort, rfl⟩

lemma new_fields {sortFn : List (Nat × SFCRecord F) → List (Nat × SFCRecord F)}
    {space : CellSpace V} {morton : MortonEncoder} {dims : Nat}
    {items : List (List V × F)} {s : SpaceFillingCurve F V}
    (h : SpaceFillingCurve.new sortFn space morton dims items = some s) :
    s.dimensions = dims ∧ s.morton = morton ∧ s.space = space := by
  obtain ⟨flat, p0, rest, -, -, hs⟩ := new_eq h
  rw [hs]
  exact ⟨rfl, rfl, rfl⟩

lemma new_pairsOf {sortFn : List (Nat × SFCRecord F) → List (Nat × SFCRecord F)}
    {space : CellSpace V} {morton : MortonEncoder} {dims : Nat}
    {items : List (List V × F)} {s : SpaceFillingCurve F V}
    (h : SpaceFillingCurve.new sortFn space morton dims items = some s) :
    ∃ flat, mkFlat space morton items = some flat ∧ pairsOf s.index = sortFn flat := by
  obtain ⟨flat, p0, rest, hflat, hsort, hs⟩ := new_eq h
  refine ⟨flat, hflat, ?_⟩
  rw [hs, hsort]
  have := groupLoop_pairsOf (p0 :: rest) [⟨p0.1, []⟩] p0.1 ⟨p0.1, []⟩ rfl rfl
  simpa [pairsOf] using this

lemma new_codes_pairwise {sortFn : List (Nat × SFCRecord F) → List (Nat × SFCRecord F)}
    {space : CellSpace V} {morton : MortonEncoder} {dims : Nat}
    {items : List (List V × F)} {s : SpaceFillingCurve F V}
    (hsort : SortsByCode sortFn)
    (h : SpaceFillingCurve.new sortFn space morton dims items = some s) :
    s.codes.Pairwise (· < ·) := by
  obtain ⟨flat, p0, rest, hflat, hsorted, hs⟩ := new_eq h
  have hpw : (sortFn flat).Pairwise fun a b => a.1 ≤ b.1 := (hsort flat).2
  rw [hsorted] at hpw
  rw [hs]
  show ((groupLoop [⟨p0.1, []⟩] p0.1 (p0 :: rest)).map fun c => c.code).Pairwise (· < ·)
  refine groupLoop_codes_pairwise (p0 :: rest) [⟨p0.1, []⟩] p0.1 ⟨p0.1, []⟩ rfl rfl hpw
    ?_ (by simp) (by simp)
  intro p hp
  rcases List.mem_cons.mp hp with heq | hmem
  · rw [heq]
  · rw [List.pairwise_cons] at hpw
    exact hpw.1 p hmem

/-! The record scan of find. -/

lemma collectMatches_spec (dims : Nat) (qoffs : List Nat) (records : List (SFCRecord F))
    (h : ∀ r ∈ records, min dims qoffs.length ≤ r.offsets.length) :
    ∃ vals, collectMatches dims qoffs records = some vals ∧
      ∀ r ∈ records, selectRecord dims qoffs r = some true → r.fields ∈ vals := by
  induction records with
  | nil => exact ⟨[], rfl, by simp⟩
  | cons r rest ih =>
    have hsel : selectRecord dims qoffs r
        = some ((List.range (min dims qoffs.length)).all
            fun k => r.offsets.getD k 0 == qoffs.getD k 0 % U32) := by
      unfold selectRecord
      rw [if_pos (h r (by simp))]
    obtain ⟨vals, hvals, hmemv⟩ := ih fun q hq => h q (List.mem_cons_of_mem r hq)
    refine ⟨if (List.range (min dims qoffs.length)).all
        (fun k => r.offsets.getD k 0 == qoffs.getD k 0 % U32) then r.fields :: vals else vals,
      ?_, ?_⟩
    · rw [collectMatches, hsel, hvals]
    · intro q hq hqsel
      rcases List.mem_cons.mp hq with heq | hmem
      · rw [heq] at hqsel
        rw [hqsel] at hsel
        have hb := Option.some_injective _ hsel
        rw [heq, ← hb]
        simp
      · have := hmemv q hmem hqsel
        split
        · exact List.mem_cons_of_mem _ this
        · exact this

/-- In a strictly sorted cell array, the cell found at the index returned
for a code is the unique cell carrying that code. -/
lemma index_get_of_code {s : SpaceFillingCurve F V} (hsorted : s.codes.Pairwise (· < ·))
    {cell : SFCCell F} (hmem : cell ∈ s.index) {i : Nat} (hi : i < s.index.length)
    (hcode : s.codes.getD i 0 = cell.code) :
    s.index.get ⟨i, hi⟩ = cell := by
  have hnodup : s.codes.Nodup := hsorted.nodup
  obtain ⟨j, hj, hget⟩ := List.mem_iff_getElem.mp hmem
  have hlen : s.codes.length = s.index.length := by
    unfold SpaceFillingCurve.codes; rw [List.length_map]
  have hil : i < s.codes.length := by omega
  have hjl : j < s.codes.length := by omega
  have hjm : j < (s.index.map fun c => c.code).length := by
    rw [List.length_map]; omega
  have hci : s.codes[i] = cell.code :=
    (List.getD_eq_getElem s.codes 0 hil).symm.trans hcode
  have hcj : s.codes[j] = cell.code := by
    show (s.index.map fun c => c.code)[j] = cell.code
    rw [List.getElem_map, hget]
  have heq2 : s.codes.get ⟨i, hil⟩ = s.codes.get ⟨j, hjl⟩ := by
    simp only [List.get_eq_getElem]
    rw [hci, hcj]
  have hij := congrArg Fin.val ((hnodup.get_inj_iff).mp heq2)
  simp only at hij
  simp only [List.get_eq_getElem]
  subst hij
  exact hget

/-- Membership of a code in the code array from a successful search. -/
lemma code_mem_of_ok {codes : List Nat} {target i : Nat}
    (h : binarySearch codes target = .ok i) : target ∈ codes := by
  obtain ⟨hi, hc⟩ := binarySearch_ok h
  rw [List.getD_eq_getElem codes 0 hi] at hc
  exact List.mem_iff_getElem.mpr ⟨i, hi, hc⟩

/-! Resolution of the limits boundaries against the spec-side description. -/

lemma resolveStart_of_ok {codes : List Nat} {c i : Nat}
    (hsorted : codes.Pairwise (· < ·)) (h : binarySearch codes c = .ok i) :
    resolveStart codes c = i := by
  obtain ⟨hi, hc⟩ := binarySearch_ok h
  unfold resolveStart
  rw [if_pos (code_mem_of_ok h)]
  exact sorted_indexOf_eq hsorted hi hc

lemma resolveStart_of_err {codes : List Nat} {c e : Nat}
    (hsorted : codes.Pairwise (· < ·)) (h : binarySearch codes c = .error e) :
    resolveStart codes c = if 0 < e then e - 1 else 0 := by
  unfold resolveStart insertionPoint
  rw [if_neg (binarySearch_err_not_mem hsorted h),
    ← binarySearch_err_countP hsorted h]
  split
  · rfl
  · omega

lemma resolveEnd_of_ok {codes : List Nat} {c i : Nat}
    (hsorted : codes.Pairwise (· < ·)) (h : binarySearch codes c = .ok i) :
    resolveEnd codes c = i + 1 := by
  obtain ⟨hi, hc⟩ := binarySearch_ok h
  unfold resolveEnd
  rw [if_pos (code_mem_of_ok h)]
  rw [sorted_indexOf_eq hsorted hi hc]

lemma resolveEnd_of_err {codes : List Nat} {c e : Nat}
    (hsorted : codes.Pairwise (· < ·)) (h : binarySearch codes c = .error e) :
    resolveEnd codes c = if codes.length ≤ e then codes.length else e := by
  have hle : e ≤ codes.length := (binarySearch_err hsorted h).1
  unfold resolveEnd insertionPoint
  rw [if_neg (binarySearch_err_not_mem hsorted h),
    ← binarySearch_err_countP hsorted h]
  split <;> omega

lemma codes_length {s : SpaceFillingCurve F V} : s.index.length = s.codes.length := by
  unfold SpaceFillingCurve.codes
  rw [List.length_map]

/-! Claim theorems. -/

/-- C6: the limits helper resolves the start bound by rounding the
quantized start key down, encoding, and binary-searching the cell array,
using the found index if the code is present and otherwise the insertion
point minus one clamped to 0; and it resolves the end bound by rounding
the quantized end key up, encoding, and binary-searching, using the found
index plus one if the code is present and otherwise the insertion point
clamped to the array length, yielding an inclusive-exclusive cell-index
range. -/
theorem limits_resolution_spec {s : SpaceFillingCurve F V} {a b : List V}
    {cd od : List Nat} {cs : Nat} {ps : List V} {cu ou : List Nat} {ce : Nat} {pe : List V}
    (hsorted : s.codes.Pairwise (· < ·))
    (h1 : s.space.key_down a = .ok (cd, od)) (h2 : s.encode cd = .ok cs)
    (h3 : s.space.value cd od = .ok ps)
    (h4 : s.space.key_up b = .ok (cu, ou)) (h5 : s.encode cu = .ok ce)
    (h6 : s.space.value cu ou = .ok pe) :
    s.limits a b = .ok ⟨⟨resolveStart s.codes cs, ps⟩, ⟨resolveEnd s.codes ce, pe⟩⟩ := by
  have hlen : s.index.length = s.codes.length := codes_length
  simp only [SpaceFillingCurve.limits, h1, h2, h3, h4, h5, h6, hlen]
  cases hbs1 : binarySearch s.codes cs with
  | ok i =>
    cases hbs2 : binarySearch s.codes ce with
    | ok j =>
      simp only [resolveStart_of_ok hsorted hbs1, resolveEnd_of_ok hsorted hbs2]
    | error e =>
      simp only [resolveStart_of_ok hsorted hbs1, resolveEnd_of_err hsorted hbs2]
  | error e =>
    cases hbs2 : binarySearch s.codes ce with
    | ok j =>
      simp only [resolveStart_of_err hsorted hbs1, resolveEnd_of_ok hsorted hbs2]
    | error e2 =>
      simp only [resolveStart_of_err hsorted hbs1, resolveEnd_of_err hsorted hbs2]

/-- Witness for C6 at a concrete index and query: the start code 0 is
absent (insertion point 0, clamped), the end code 3 is present at cell
index 0, so the resolved range is the inclusive-exclusive pair (0, 1). -/
theorem limits_resolution_spec_witness :
    idx8.limits [0, 0, 0] [7, 7, 0]
      = .ok ⟨⟨resolveStart idx8.codes 0, [0, 0, 0]⟩, ⟨resolveEnd idx8.codes 3, [7, 7, 0]⟩⟩ :=
  limits_resolution_spec (by decide) rfl rfl rfl rfl rfl rfl

/-- C7: when quantization or encoding of the query key fails, or the
resulting curve code is absent from the cell array, find returns an empty
sequence rather than propagating an error; a malformed query and a
genuine miss are indistinguishable in the result. -/
theorem find_empty_on_failure {s : SpaceFillingCurve F V} {key : List V}
    (h : (∃ e, s.space.key key = .error e) ∨
      (∃ cids offs e, s.space.key key = .ok (cids, offs) ∧ s.encode cids = .error e) ∨
      (∃ cids offs code, s.space.key key = .ok (cids, offs) ∧ s.encode cids = .ok code ∧
        s.codes.Pairwise (· < ·) ∧ code ∉ s.codes)) :
    s.find key = some [] := by
  unfold SpaceFillingCurve.find
  rcases h with ⟨e, he⟩ | ⟨cids, offs, e, hok, he⟩ | ⟨cids, offs, code, hok, hcode, hsorted, habs⟩
  · rw [he]
  · simp only [hok, he]
  · simp only [hok, hcode]
    cases hbs : binarySearch s.codes code with
    | error e => rfl
    | ok i => exact absurd (code_mem_of_ok hbs) habs

/-- Witness for C7 at a concrete index: the short query key fails
quantization and find returns the empty result. -/
theorem find_empty_on_failure_witness : idx8.find [0, 0] = some [] :=
  find_empty_on_failure (Or.inl ⟨"invalid position", rfl⟩)

/-- C1 (code evidence): building the index from an empty item collection
does not yield an empty index; the unconditional flat_table[0] access of
SpaceFillingCurve::new panics, modelled by the none result. -/
theorem new_empty_input_panics :
    SpaceFillingCurve.new rtSort sfcSpace8 sfcMorton8 3 ([] : List (List Nat × String))
      = none := rfl

/-- C4: for any input on which the build succeeds, the cell array of the
built index is sorted strictly ascending by curve code, and in particular
no two cells share a code. -/
theorem new_codes_strictly_ascending
    {sortFn : List (Nat × SFCRecord F) → List (Nat × SFCRecord F)}
    {space : CellSpace V} {morton : MortonEncoder} {dims : Nat}
    {items : List (List V × F)} {s : SpaceFillingCurve F V}
    (hsort : SortsByCode sortFn)
    (hnew : SpaceFillingCurve.new sortFn space morton dims items = some s) :
    s.codes.Pairwise (· < ·) ∧ s.codes.Nodup :=
  have h := new_codes_pairwise hsort hnew
  ⟨h, h.nodup⟩

/-- Witness for C4 at a concrete non-empty build. -/
theorem new_codes_strictly_ascending_witness :
    idx8.codes.Pairwise (· < ·) ∧ idx8.codes.Nodup :=
  new_codes_strictly_ascending rtSort_sorts
    (show SpaceFillingCurve.new rtSort sfcSpace8 sfcMorton8 3 items8 = some idx8 from rfl)

/-- C3 counterexample: a sorting function conforming to the contract of
sort_unstable_by (sorted permutation, equal elements freely reordered)
can reverse equal-code pairs, and the built cell then holds the records
of two equal-key items in reversed insertion order: the claimed stability
is not guaranteed by the code. -/
theorem sort_tie_order_counterexample :
    SortsByCode (revSort (F := String)) ∧
    SpaceFillingCurve.new revSort spaceDup sfcMorton8 3 itemsDup = some idxDup ∧
    idxDup.index.map (fun c => c.records.map fun r => r.fields) = [["y", "x"]] ∧
    (["y", "x"] : List String) ≠ ["x", "y"] :=
  ⟨revSort_sorts, rfl, rfl, by decide⟩

/-- C3 amended: the builder sorts the (code, record) pairs ascending by
curve code with an unstable sort; concatenating the cells of the built
index reproduces exactly the sort output, which is a permutation of the
valid input pairs sorted by code, so within every cell the records appear
in sort-output order, a permutation of their input order that need not
preserve it. -/
theorem new_cells_are_sorted_groups
    {sortFn : List (Nat × SFCRecord F) → List (Nat × SFCRecord F)}
    {space : CellSpace V} {morton : MortonEncoder} {dims : Nat}
    {items : List (List V × F)} {s : SpaceFillingCurve F V}
    (hsort : SortsByCode sortFn)
    (hnew : SpaceFillingCurve.new sortFn space morton dims items = some s) :
    ∃ flat, mkFlat space morton items = some flat ∧
      pairsOf s.index = sortFn flat ∧ (pairsOf s.index).Perm flat ∧
      (pairsOf s.index).Pairwise fun p q => p.1 ≤ q.1 := by
  obtain ⟨flat, hflat, hpairs⟩ := new_pairsOf hnew
  refine ⟨flat, hflat, hpairs, ?_, ?_⟩
  · rw [hpairs]; exact (hsort flat).1
  · rw [hpairs]; exact (hsort flat).2

/-- Witness for C3 amended at the duplicate-key build. -/
theorem new_cells_are_sorted_groups_witness :
    ∃ flat, mkFlat spaceDup sfcMorton8 itemsDup = some flat ∧
      pairsOf idxDup.index = revSort flat ∧ (pairsOf idxDup.index).Perm flat ∧
      (pairsOf idxDup.index).Pairwise fun p q => p.1 ≤ q.1 :=
  new_cells_are_sorted_groups revSort_sorts
    (show SpaceFillingCurve.new revSort spaceDup sfcMorton8 3 itemsDup = some idxDup from rfl)

/-- C5 counterexample: under a conforming unstable sort the two payloads
of the duplicate key (5, 5, 5) are returned in reversed insertion order,
so the claimed insertion-order guarantee does not hold. -/
theorem find_duplicate_order_counterexample :
    SortsByCode (revSort (F := String)) ∧
    SpaceFillingCurve.new revSort spaceDup sfcMorton8 3 itemsDup = some idxDup ∧
    idxDup.find [5, 5, 5] = some ["y", "x"] ∧
    (["y", "x"] : List String) ≠ ["x", "y"] :=
  ⟨revSort_sorts, rfl, rfl, by decide⟩

/-- C5 amended: for every source item whose key quantizes and encodes
successfully during a successful build with at most three dimensions,
find applied to the key of that item succeeds and its result contains the
payload of that item; for duplicate keys all payloads are returned, in the
cell record order produced by the sort. -/
theorem find_includes_indexed_payload
    {sortFn : List (Nat × SFCRecord F) → List (Nat × SFCRecord F)}
    {space : CellSpace V} {morton : MortonEncoder} {dims : Nat}
    {items : List (List V × F)} {s : SpaceFillingCurve F V}
    (hsort : SortsByCode sortFn)
    (hnew : SpaceFillingCurve.new sortFn space morton dims items = some s)
    (hdims : dims ≤ 3)
    {k : List V} {f : F} {cids offs : List Nat} {code : Nat}
    (hitem : (k, f) ∈ items)
    (hkey : space.key k = .ok (cids, offs))
    (hcode : morton.encode cids = .ok code) :
    ∃ vals, s.find k = some vals ∧ f ∈ vals := by
  obtain ⟨flat, hflat, hpairs⟩ := new_pairsOf hnew
  obtain ⟨hoff3, hmemflat⟩ := mkFlat_mem hflat hitem hkey hcode
  have hperm : (sortFn flat).Perm flat := (hsort flat).1
  have hmemsort :
      (code, (⟨[offs.getD 0 0 % U32, offs.getD 1 0 % U32, offs.getD 2 0 % U32], f⟩ :
        SFCRecord F)) ∈ pairsOf s.index := by
    rw [hpairs]; exact hperm.mem_iff.mpr hmemflat
  obtain ⟨cell, hcellmem, hcode2, hrecmem⟩ :
      ∃ cell, cell ∈ s.index ∧ cell.code = code ∧
        (⟨[offs.getD 0 0 % U32, offs.getD 1 0 % U32, offs.getD 2 0 % U32], f⟩ :
          SFCRecord F) ∈ cell.records := by
    obtain ⟨cell, hcell, hp⟩ := List.mem_flatMap.mp hmemsort
    obtain ⟨r, hr, heq⟩ := List.mem_map.mp hp
    obtain ⟨he1, he2⟩ := Prod.mk.injEq .. ▸ heq
    exact ⟨cell, hcell, he1, he2 ▸ hr⟩
  have hsorted := new_codes_pairwise hsort hnew
  have hcodemem : code ∈ s.codes := by
    unfold SpaceFillingCurve.codes
    exact List.mem_map.mpr ⟨cell, hcellmem, hcode2⟩
  obtain ⟨i, hbs⟩ := binarySearch_mem_ok hsorted hcodemem
  obtain ⟨hilen, hgetD⟩ := binarySearch_ok hbs
  have hilen2 : i < s.index.length := by rw [codes_length]; exact hilen
  have hgetcell : s.index.get ⟨i, hilen2⟩ = cell :=
    index_get_of_code hsorted hcellmem hilen2 (hgetD.trans hcode2.symm)
  have hofflen : ∀ r ∈ cell.records, r.offsets.length = 3 := by
    intro r hr
    have hrp : (cell.code, r) ∈ pairsOf s.index :=
      List.mem_flatMap.mpr ⟨cell, hcellmem, List.mem_map.mpr ⟨r, hr, rfl⟩⟩
    rw [hpairs] at hrp
    exact mkFlat_offsets_length hflat _ (hperm.mem_iff.mp hrp)
  obtain ⟨hdimseq, hmort, hspace⟩ := new_fields hnew
  have hmin : ∀ r ∈ cell.records, min s.dimensions offs.length ≤ r.offsets.length := by
    intro r hr
    rw [hofflen r hr, hdimseq]
    omega
  obtain ⟨vals, hcm, hmemv⟩ := collectMatches_spec s.dimensions offs cell.records hmin
  refine ⟨vals, ?_, ?_⟩
  · unfold SpaceFillingCurve.find
    rw [hspace]
    simp only [hkey]
    unfold SpaceFillingCurve.encode
    rw [hmort]
    simp only [hcode, hbs]
    rw [dif_pos hilen2, hgetcell]
    exact hcm
  · refine hmemv _ hrecmem ?_
    unfold selectRecord
    have hreclen : ([offs.getD 0 0 % U32, offs.getD 1 0 % U32, offs.getD 2 0 % U32] :
        List Nat).length = 3 := rfl
    rw [if_pos (by simp only [hreclen]; rw [hdimseq]; omega)]
    refine congrArg some ?_
    rw [List.all_eq_true]
    intro x hx
    have hx3 : x < 3 := by
      have hxr := List.mem_range.mp hx
      omega
    interval_cases x <;> simp

/-- Witness for C5 amended at a concrete build and item. -/
theorem find_includes_indexed_payload_witness :
    ∃ vals, idx8.find [5, 7, 0] = some vals ∧ "p" ∈ vals :=
  find_includes_indexed_payload rtSort_sorts
    (show SpaceFillingCurve.new rtSort sfcSpace8 sfcMorton8 3 items8 = some idx8 from rfl)
    (by omega) (by decide)
    (show sfcSpace8.key [5, 7, 0] = .ok ([1, 1, 0], [1, 3, 0]) from rfl)
    (show sfcMorton8.encode [1, 1, 0] = .ok 3 from rfl)

/-- C8 (code evidence): once the first record position (5, 7, 0) and the
global grid extreme (7, 7, 0) lie inside the queried box
[(5, 5, 0), (7, 7, 0)], the fast path accepts every record of the cell,
including the record with key (7, 4, 0) that lies outside the box; the
result of the enclosing query filtered to the sub-box therefore differs
from the sub-box query, violating containment monotonicity. -/
theorem find_range_fast_path_over_accepts :
    SpaceFillingCurve.new rtSort sfcSpace8 sfcMorton8 3 items8 = some idx8 ∧
    idx8.find_range [5, 5, 0] [7, 7, 0] = some [([5, 7, 0], "p"), ([7, 4, 0], "q")] ∧
    inBoxSpec 3 [5, 5, 0] [7, 7, 0] [7, 4, 0] = false ∧
    idx8.find_range [0, 0, 0] [7, 7, 0] = some [([5, 7, 0], "p"), ([7, 4, 0], "q")] ∧
    ([([5, 7, 0], "p"), ([7, 4, 0], "q")].filter
      fun kv => inBoxSpec 3 [5, 5, 0] [7, 7, 0] kv.1) = [([5, 7, 0], "p")] ∧
    ([([5, 7, 0], "p")] : List (List Nat × String)) ≠ [([5, 7, 0], "p"), ([7, 4, 0], "q")] :=
  ⟨rfl, rfl, rfl, rfl, rfl, by decide⟩

/-- C10 counterexample: a find_range call on a 3-dimensional index whose
query keys have only two components completes with an empty result (the
limits resolution fails before the scan loop), so find_range does not
read components 0, 1 and 2 of the keys on every call, and the keys of
such a call need not support indexing up to 2. -/
theorem find_range_no_read_counterexample :
    idx8.find_range [0, 0] [0, 0] = some [] ∧ ([0, 0] : List Nat).length < 3 :=
  ⟨rfl, by decide⟩

/-- C10 amended: whenever the resolved limits range is nonempty and the
first scanned cell reaches the bounding-box tests (its first-record
decoding and the extreme reconstruction succeed), find_range reads
components 0, 1 and 2 of both query keys, and panics when either key has
fewer than three components, even when the index was built with fewer
than three dimensions. -/
theorem find_range_requires_three_components
    {s : SpaceFillingCurve F V} {a b : List V} {lim : Limits V}
    (hlim : s.limits a b = .ok lim)
    (hne : lim.start.idx < lim.stop.idx)
    (hidx : lim.start.idx < s.index.length)
    {record0 : SFCRecord F} {rest : List (SFCRecord F)}
    (hrecs : (s.index.get ⟨lim.start.idx, hidx⟩).records = record0 :: rest)
    (hfirst : (s.value (s.index.get ⟨lim.start.idx, hidx⟩).code record0.offsets).isOk = true)
    (hlast : (s.space.value s.space.last.1 s.space.last.2).isOk = true)
    (hshort : a.length < 3 ∨ b.length < 3) :
    s.find_range a b = none := by
  obtain ⟨first, hfv⟩ : ∃ p, s.value (s.index.get ⟨lim.start.idx, hidx⟩).code record0.offsets
      = .ok p := by
    cases h : s.value (s.index.get ⟨lim.start.idx, hidx⟩).code record0.offsets with
    | error e => rw [h] at hfirst; cases hfirst
    | ok p => exact ⟨p, rfl⟩
  obtain ⟨lst, hlv⟩ : ∃ p, s.space.value s.space.last.1 s.space.last.2 = .ok p := by
    cases h : s.space.value s.space.last.1 s.space.last.2 with
    | error e => rw [h] at hlast; cases hlast
    | ok p => exact ⟨p, rfl⟩
  have hscan : scanCell s a b lim.start.idx = none := by
    unfold scanCell
    rw [dif_pos hidx]
    simp only [hrecs, hfv, hlv]
    rw [if_pos hshort]
  simp only [SpaceFillingCurve.find_range, hlim]
  have hsplit : lim.stop.idx - lim.start.idx = (lim.stop.idx - lim.start.idx - 1) + 1 := by
    omega
  rw [hsplit, List.range'_succ, List.mapM_cons]
  simp [hscan]

/-- Witness for C10 amended: a 2-dimensional index structure with
2-component query keys; the limits resolve to the nonempty range (0, 1),
the cell reaches the tests, and the call panics on the key component
reads. -/
theorem find_range_requires_three_components_witness :
    idx2.find_range [5, 5] [7, 7] = none :=
  find_range_requires_three_components
    (show idx2.limits [5, 5] [7, 7]
      = Except.ok ⟨⟨0, [5, 5]⟩, ⟨1, [7, 7]⟩⟩ from rfl)
    (by decide) (by decide) rfl rfl rfl (Or.inl (by decide))

/-- Per-cell reverse-lookup lemma: with succeeding reconstructions, the
record filter of one cell matches the spec-side filter-and-map form. -/
lemma fbv_cell {s : SpaceFillingCurve F V} {v : F} (code : Nat)
    (records : List (SFCRecord F))
    (hok : ∀ r ∈ records, r.fields = v → (s.position code r.offsets).isOk = true) :
    (records.filterMap fun record =>
      if record.fields = v then (s.position code record.offsets).toOption else none)
    = (records.filter fun r => decide (r.fields = v)).map
        fun r => keyOfSpec s code r.offsets := by
  induction records with
  | nil => rfl
  | cons r rs ih =>
    rw [List.filterMap_cons, List.filter_cons]
    by_cases hfv : r.fields = v
    · rw [if_pos hfv]
      obtain ⟨key, hpos⟩ : ∃ p, s.position code r.offsets = .ok p := by
        cases h : s.position code r.offsets with
        | error e =>
          have := hok r (by simp) hfv
          rw [h] at this; cases this
        | ok p => exact ⟨p, rfl⟩
      rw [hpos]
      rw [if_pos (by simp only [decide_eq_true_eq]; exact hfv)]
      rw [List.map_cons]
      rw [ih fun q hq => hok q (List.mem_cons_of_mem r hq)]
      unfold keyOfSpec
      rw [hpos]
      rfl
    · rw [if_neg hfv, if_neg (by simp only [decide_eq_true_eq]; exact hfv)]
      exact ih fun q hq => hok q (List.mem_cons_of_mem r hq)

/-- Reverse-lookup equality over an arbitrary cell list with succeeding
reconstructions. -/
lemma fbv_cells {s : SpaceFillingCurve F V} {v : F} (cells : List (SFCCell F))
    (hok : ∀ cell ∈ cells, ∀ r ∈ cell.records, r.fields = v →
      (s.position cell.code r.offsets).isOk = true) :
    (cells.flatMap fun cell => cell.records.filterMap fun record =>
      if record.fields = v then (s.position cell.code record.offsets).toOption else none)
    = ((cells.flatMap fun cell => cell.records.map fun r => (cell.code, r)).filter
        fun p => decide (p.2.fields = v)).map fun p => keyOfSpec s p.1 p.2.offsets := by
  induction cells with
  | nil => rfl
  | cons cell cells ih =>
    rw [List.flatMap_cons, List.flatMap_cons, List.filter_append, List.map_append]
    rw [fbv_cell cell.code cell.records fun r hr => hok cell (by simp) r hr]
    rw [List.filter_map, List.map_map]
    refine congrArg (_ ++ ·) ?_
    exact ih fun c hc r hr => hok c (List.mem_cons_of_mem cell hc) r hr

/-- C9: find_by_value scans every record of every cell linearly and
returns exactly the reconstructed keys of the records whose payload
equals the probe value (under the domain equality of F); when no record
carries the value it returns the empty sequence. -/
theorem find_by_value_returns_matching_keys {s : SpaceFillingCurve F V} {v : F}
    (hok : ∀ cell ∈ s.index, ∀ r ∈ cell.records, r.fields = v →
      (s.position cell.code r.offsets).isOk = true) :
    s.find_by_value v = findByValueSpec s v ∧
      ((∀ cell ∈ s.index, ∀ r ∈ cell.records, r.fields ≠ v) → s.find_by_value v = []) := by
  have hmain : s.find_by_value v = findByValueSpec s v := by
    unfold SpaceFillingCurve.find_by_value findByValueSpec pairsOf
    exact fbv_cells s.index hok
  refine ⟨hmain, fun habs => ?_⟩
  rw [hmain]
  unfold findByValueSpec
  have : (pairsOf s.index).filter (fun p => decide (p.2.fields = v)) = [] := by
    rw [List.filter_eq_nil_iff]
    intro p hp
    obtain ⟨cell, hcell, hq⟩ := List.mem_flatMap.mp hp
    obtain ⟨r, hr, heq⟩ := List.mem_map.mp hq
    have : p.2 = r := by rw [← heq]
    rw [this]
    simp only [decide_eq_true_eq]
    exact habs cell hcell r hr
  rw [this]
  rfl

/-- Witness for C9 at a concrete index and values: one matching record
(value present) and the absent-value case. -/
theorem find_by_value_returns_matching_keys_witness :
    (idx8.find_by_value "q" = findByValueSpec idx8 "q" ∧
      ((∀ cell ∈ idx8.index, ∀ r ∈ cell.records, r.fields ≠ "q") →
        idx8.find_by_value "q" = [])) ∧
    (idx8.find_by_value "z" = findByValueSpec idx8 "z" ∧
      ((∀ cell ∈ idx8.index, ∀ r ∈ cell.records, r.fields ≠ "z") →
        idx8.find_by_value "z" = [])) :=
  ⟨find_by_value_returns_matching_keys (by decide),
   find_by_value_returns_matching_keys (by decide)⟩

/-! Equivalence of the zip-based bounding-box tests of find_range with
the for-all-dimensions component-wise tests of the spec. -/

lemma all_and_distrib {α : Type} (l : List α) (f g : α → Bool) :
    (l.all fun x => f x && g x) = (l.all f && l.all g) := by
  induction l with
  | nil => rfl
  | cons x xs ih =>
    simp only [List.all_cons, ih]
    cases f x <;> cases g x <;> cases hA : xs.all f <;> cases hB : xs.all g <;> rfl

lemma bool4_comm (p q r s : Bool) : (p && q && r && s) = ((p && r) && (q && s)) := by
  cases p <;> cases q <;> cases r <;> cases s <;> rfl

lemma inBoxSpec_split [Inhabited V] (dims : Nat) (a b p : List V) :
    inBoxSpec dims a b p
      = (((List.range dims).all fun i => decide (a.getD i default ≤ p.getD i default)) &&
          ((List.range dims).all fun i => decide (p.getD i default ≤ b.getD i default))) :=
  all_and_distrib _ _ _

lemma zip_take_all_eq [Inhabited V] (f : V × V → Bool) (a p : List V) (dims : Nat)
    (ha : 3 ≤ a.length) (hp : p.length = dims) (hd : dims ≤ 3) :
    ((a.take 3).zip p).all f
      = (List.range dims).all fun i => f (a.getD i default, p.getD i default) := by
  have hlen : ((a.take 3).zip p).length = dims := by
    rw [List.length_zip, List.length_take]
    omega
  rw [Bool.eq_iff_iff, List.all_eq_true, List.all_eq_true]
  constructor
  · intro h i hi
    have hi' : i < dims := List.mem_range.mp hi
    have hiz : i < ((a.take 3).zip p).length := by omega
    have hit : i < (a.take 3).length := by rw [List.length_take]; omega
    have hia : i < a.length := by omega
    have hip : i < p.length := by omega
    have hval := h _ (List.getElem_mem hiz)
    rw [List.getElem_zip] at hval
    have h1 : (a.take 3)[i] = a[i] := List.getElem_take a
    rw [h1] at hval
    rw [List.getD_eq_getElem a default hia, List.getD_eq_getElem p default hip]
    exact hval
  · intro h ab hab
    obtain ⟨i, hi, hget⟩ := List.mem_iff_getElem.mp hab
    have hi' : i < dims := by omega
    have hit : i < (a.take 3).length := by rw [List.length_take]; omega
    have hia : i < a.length := by omega
    have hip : i < p.length := by omega
    have hval := h i (List.mem_range.mpr hi')
    rw [← hget, List.getElem_zip]
    have h1 : (a.take 3)[i] = a[i] := List.getElem_take a
    rw [h1]
    rw [List.getD_eq_getElem a default hia, List.getD_eq_getElem p default hip] at hval
    exact hval

lemma zipAll_le_eq [Inhabited V] (a p : List V) (dims : Nat)
    (ha : 3 ≤ a.length) (hp : p.length = dims) (hd : dims ≤ 3) :
    ((a.take 3).zip p).all (fun ab => decide (ab.1 ≤ ab.2))
      = (List.range dims).all fun i => decide (a.getD i default ≤ p.getD i default) :=
  zip_take_all_eq (fun ab => decide (ab.1 ≤ ab.2)) a p dims ha hp hd

lemma zipAll_ge_eq [Inhabited V] (b p : List V) (dims : Nat)
    (hb : 3 ≤ b.length) (hp : p.length = dims) (hd : dims ≤ 3) :
    ((b.take 3).zip p).all (fun ab => decide (ab.2 ≤ ab.1))
      = (List.range dims).all fun i => decide (p.getD i default ≤ b.getD i default) :=
  zip_take_all_eq (fun ab => decide (ab.2 ≤ ab.1)) b p dims hb hp hd

lemma valueLenOk_elim {s : SpaceFillingCurve F V} {code : Nat} {offs : List Nat}
    (h : valueLenOk s code offs = true) :
    ∃ p, s.value code offs = .ok p ∧ p.length = s.dimensions := by
  unfold valueLenOk at h
  cases hv : s.value code offs with
  | error e => rw [hv] at h; cases h
  | ok p =>
    rw [hv] at h
    simp only [beq_iff_eq] at h
    exact ⟨p, rfl, h⟩

lemma position_of_value {s : SpaceFillingCurve F V} {code : Nat} {offs : List Nat}
    {p : List V} (h : s.value code offs = .ok p) :
    s.position code offs = .ok (p.map fun x => x) := by
  unfold SpaceFillingCurve.position
  rw [h]
  rfl

lemma keyOfSpec_of_value {s : SpaceFillingCurve F V} {code : Nat} {offs : List Nat}
    {p : List V} (h : s.value code offs = .ok p) :
    keyOfSpec s code offs = p.map fun x => x := by
  unfold keyOfSpec
  rw [position_of_value h]
  rfl

/-- The fast path of the range scan: with succeeding reconstructions it
accepts every record of the cell. -/
lemma fast_branch_eq {s : SpaceFillingCurve F V} (code : Nat)
    (records : List (SFCRecord F))
    (hv : ∀ r ∈ records, valueLenOk s code r.offsets = true) :
    (records.filterMap fun record =>
      match s.position code record.offsets with
      | .error _ => none
      | .ok key => some (key, record.fields))
    = records.map fun record => (keyOfSpec s code record.offsets, record.fields) := by
  induction records with
  | nil => rfl
  | cons r rs ih =>
    obtain ⟨p, hp, -⟩ := valueLenOk_elim (hv r (by simp))
    simp only [List.filterMap_cons, List.map_cons, position_of_value hp,
      keyOfSpec_of_value hp]
    rw [ih fun q hq => hv q (List.mem_cons_of_mem r hq)]

/-- The fallback of the range scan: with succeeding reconstructions of
the stated dimension count it accepts exactly the records whose decoded
position passes the component-wise test. -/
lemma fallback_branch_eq [Inhabited V] {s : SpaceFillingCurve F V} {a b : List V}
    (code : Nat) (records : List (SFCRecord F))
    (ha : 3 ≤ a.length) (hb : 3 ≤ b.length) (hd : s.dimensions ≤ 3)
    (hv : ∀ r ∈ records, valueLenOk s code r.offsets = true) :
    (records.filterMap fun record =>
      match s.value code record.offsets with
      | .error _ => none
      | .ok pos =>
        if ((a.take 3).zip pos).all (fun ab => decide (ab.1 ≤ ab.2)) &&
            ((b.take 3).zip pos).all (fun ab => decide (ab.2 ≤ ab.1)) then
          match s.position code record.offsets with
          | .error _ => none
          | .ok key => some (key, record.fields)
        else none)
    = (records.filter fun record => recInBox s a b code record).map
        fun record => (keyOfSpec s code record.offsets, record.fields) := by
  induction records with
  | nil => rfl
  | cons r rs ih =>
    obtain ⟨p, hp, hplen⟩ := valueLenOk_elim (hv r (by simp))
    have hrib : recInBox s a b code r = inBoxSpec s.dimensions a b p := by
      unfold recInBox
      rw [hp]
    have hcond : (((a.take 3).zip p).all (fun ab => decide (ab.1 ≤ ab.2)) &&
        ((b.take 3).zip p).all (fun ab => decide (ab.2 ≤ ab.1)))
        = inBoxSpec s.dimensions a b p := by
      rw [inBoxSpec_split, zipAll_le_eq a p s.dimensions ha hplen hd,
        zipAll_ge_eq b p s.dimensions hb hplen hd]
    simp only [List.filterMap_cons, List.filter_cons, hp, hrib, hcond]
    by_cases hc : inBoxSpec s.dimensions a b p = true
    · rw [if_pos hc, if_pos hc]
      simp only [position_of_value hp, List.map_cons, keyOfSpec_of_value hp]
      rw [ih fun q hq => hv q (List.mem_cons_of_mem r hq)]
    · rw [if_neg hc, if_neg hc]
      exact ih fun q hq => hv q (List.mem_cons_of_mem r hq)

/-- Per-cell equivalence of the range scan with its spec-side form. -/
lemma scanCell_eq_spec [Inhabited V] {s : SpaceFillingCurve F V} {a b : List V} {idx : Nat}
    (hdims : s.dimensions ≤ 3) (ha : 3 ≤ a.length) (hb : 3 ≤ b.length)
    (hlast : lastLenOk s = true)
    (hidx : idx < s.index.length)
    (hrecs : (s.index.getD idx ⟨0, []⟩).records ≠ [])
    (hvals : ∀ r ∈ (s.index.getD idx ⟨0, []⟩).records,
      valueLenOk s (s.index.getD idx ⟨0, []⟩).code r.offsets = true) :
    scanCell s a b idx = some (scanCellSpec s a b idx) := by
  have hgd : s.index.getD idx ⟨0, []⟩ = s.index.get ⟨idx, hidx⟩ := by
    rw [List.getD_eq_getElem _ _ hidx]
    rfl
  rw [hgd] at hrecs hvals
  obtain ⟨ext, hev, helen⟩ : ∃ p, s.space.value s.space.last.1 s.space.last.2 = .ok p ∧
      p.length = s.dimensions := by
    unfold lastLenOk at hlast
    cases hv : s.space.value s.space.last.1 s.space.last.2 with
    | error e => rw [hv] at hlast; cases hlast
    | ok p =>
      rw [hv] at hlast
      simp only [beq_iff_eq] at hlast
      exact ⟨p, rfl, hlast⟩
  unfold scanCell scanCellSpec
  rw [dif_pos hidx, List.get?_eq_get hidx]
  cases hrl : (s.index.get ⟨idx, hidx⟩).records with
  | nil => exact absurd hrl hrecs
  | cons record0 rtl =>
    have hv0 : valueLenOk s (s.index.get ⟨idx, hidx⟩).code record0.offsets = true :=
      hvals record0 (by rw [hrl]; simp)
    obtain ⟨first, hfv, hflen⟩ := valueLenOk_elim hv0
    simp only [hrl, hfv, hev]
    rw [if_neg (show ¬(a.length < 3 ∨ b.length < 3) by omega)]
    have hcond : (((a.take 3).zip first).all (fun ab => decide (ab.1 ≤ ab.2)) &&
        ((a.take 3).zip ext).all (fun ab => decide (ab.1 ≤ ab.2)) &&
        ((b.take 3).zip first).all (fun ab => decide (ab.2 ≤ ab.1)) &&
        ((b.take 3).zip ext).all (fun ab => decide (ab.2 ≤ ab.1)))
        = (inBoxSpec s.dimensions a b first && inBoxSpec s.dimensions a b ext) := by
      rw [bool4_comm, inBoxSpec_split, inBoxSpec_split,
        zipAll_le_eq a first s.dimensions ha hflen hdims,
        zipAll_ge_eq b first s.dimensions hb hflen hdims,
        zipAll_le_eq a ext s.dimensions ha helen hdims,
        zipAll_ge_eq b ext s.dimensions hb helen hdims]
    rw [hcond]
    have hvrl : ∀ r ∈ record0 :: rtl,
        valueLenOk s (s.index.get ⟨idx, hidx⟩).code r.offsets = true := by
      rw [← hrl]; exact hvals
    by_cases hc : (inBoxSpec s.dimensions a b first && inBoxSpec s.dimensions a b ext) = true
    · rw [if_pos hc, if_pos hc]
      exact congrArg some (fast_branch_eq _ _ hvrl)
    · rw [if_neg hc, if_neg hc]
      exact congrArg some (fallback_branch_eq _ _ ha hb hdims hvrl)

lemma mapM_eq_map {α β : Type} (f : α → Option β) (g : α → β) :
    ∀ l : List α, (∀ x ∈ l, f x = some (g x)) → mapM f l = some (l.map g) := by
  intro l
  induction l with
  | nil => intro _; rfl
  | cons x xs ih =>
    intro h
    rw [List.mapM_cons, h x (by simp), ih fun y hy => h y (List.mem_cons_of_mem x hy)]
    rfl

/-- C2: over the resolved limits range, find_range applies the fast-path
test to each cell: it decodes the position of the first record of the
cell, obtains the global grid extreme of the quantizer, tests both against the bounding box
component-wise over all dimensions, accepts every record of the cell when
both pass both bound directions, and otherwise decodes the position of
each record individually and accepts exactly the records passing the same
component-wise test. -/
theorem find_range_follows_spec [Inhabited V]
    {s : SpaceFillingCurve F V} {a b : List V} {lim : Limits V}
    (hlim : s.limits a b = .ok lim)
    (hdims : s.dimensions ≤ 3) (ha : 3 ≤ a.length) (hb : 3 ≤ b.length)
    (hlast : lastLenOk s = true)
    (hlen : ∀ idx ∈ List.range' lim.start.idx (lim.stop.idx - lim.start.idx),
      idx < s.index.length)
    (hrecs : ∀ idx ∈ List.range' lim.start.idx (lim.stop.idx - lim.start.idx),
      (s.index.getD idx ⟨0, []⟩).records ≠ [])
    (hvals : ∀ idx ∈ List.range' lim.start.idx (lim.stop.idx - lim.start.idx),
      ∀ r ∈ (s.index.getD idx ⟨0, []⟩).records,
        valueLenOk s (s.index.getD idx ⟨0, []⟩).code r.offsets = true) :
    s.find_range a b = some (findRangeSpec s a b) := by
  simp only [SpaceFillingCurve.find_range, findRangeSpec, hlim]
  rw [mapM_eq_map (scanCell s a b) (scanCellSpec s a b) _
    fun idx hidx => scanCell_eq_spec hdims ha hb hlast (hlen idx hidx)
      (hrecs idx hidx) (hvals idx hidx)]
  simp [List.flatMap_def]

/-- Witness for C2 at a concrete index and range query whose cell takes
the fast path. -/
theorem find_range_follows_spec_witness :
    idx8.find_range [5, 5, 0] [7, 7, 0] = some (findRangeSpec idx8 [5, 5, 0] [7, 7, 0]) :=
  find_range_follows_spec
    (show idx8.limits [5, 5, 0] [7, 7, 0]
      = Except.ok ⟨⟨0, [5, 5, 0]⟩, ⟨1, [7, 7, 0]⟩⟩ from rfl)
    (by decide) (by decide) (by decide) (by decide) (by decide) (by decide) (by decide)

end IronSeaSFC
